import Mathlib

/-!
Verification development for the `ordbog` crate (`src/lib.rs`): a lossy
order-preserving dictionary that maps values of a totally ordered type to
small integer codes.

The Rust source is shallowly embedded below.  `Vec<T>` becomes `List T`,
`usize` becomes `Nat`, the `Default` trait becomes an explicit `dflt : T`
argument, and `Code(u16)` is modelled by the `Nat` it wraps.  The in-place
`sort_unstable` is modelled by `List.insertionSort (· ≤ ·)`, whose contract
(a sorted permutation of the input) is exactly the contract the source
relies on.  Each loop of the source becomes a recursive function whose
branch structure mirrors the loop body.
-/

set_option linter.unusedSectionVars false
set_option linter.unnecessarySeqFocus false
set_option maxRecDepth 8192

namespace Ordbog

variable {T : Type} [LinearOrder T]

/-- Embeds `Mode`: whether to build a dictionary of byte-sized or
word-sized codes (`src/lib.rs` lines 134-148). -/
inductive Mode : Type where
  | Byte : Mode
  | Word : Mode
deriving DecidableEq

/-- Embeds `Mode::num_exact_codes` (`src/lib.rs` lines 152-157). -/
def Mode.num_exact_codes : Mode → Nat
  | Mode.Byte => 127
  | Mode.Word => 32767

/-- Embeds `Mode::max_exact_code` (`src/lib.rs` lines 160-165); the `Code`
wrapper is elided, the theorems speak about the wrapped number. -/
def Mode.max_exact_code : Mode → Nat
  | Mode.Byte => 0xfe
  | Mode.Word => 0xfffe

/-- Embeds `Mode::max_inexact_code` (`src/lib.rs` lines 168-173). -/
def Mode.max_inexact_code : Mode → Nat
  | Mode.Byte => 0xff
  | Mode.Word => 0xffff

namespace Code

/-- Embeds `Code::is_exact` (`src/lib.rs` lines 126-128): a code is exact
iff its low bit is clear. -/
def is_exact (c : Nat) : Bool := c &&& 1 == 0

end Code

/-- Embeds `struct Cluster<T>` (`src/lib.rs` lines 181-184): one maximal
run of equal values in the sorted sample, with its length. -/
structure Cluster (T : Type) where
  value : T
  count : Nat
deriving DecidableEq

/-- Embeds `struct Dict<T>` (`src/lib.rs` lines 188-197). -/
structure Dict (T : Type) where
  mode : Mode
  codes : List T

/-- Embeds the loop body of `Dict::clusters` (`src/lib.rs` lines 203-216):
`curr` and `count` are the mutable locals, the list argument is the part of
the sorted sample not yet visited, and the final `push` of the source is the
base case. -/
def clustersAux (curr : T) (count : Nat) : List T → List (Cluster T)
  | [] => [⟨curr, count⟩]
  | i :: rest =>
    if i = curr then clustersAux curr (count + 1) rest
    else ⟨curr, count⟩ :: clustersAux i 1 rest

/-- Embeds `Dict::clusters` (`src/lib.rs` lines 200-219): collapse a sorted
sample into `(value, count)` clusters.  The source initialises `curr` to the
first element and `count` to `0` and then walks the whole sample. -/
def clusters : List T → List (Cluster T)
  | [] => []
  | x :: rest => clustersAux x 0 (x :: rest)

/-- Models `<[T]>::binary_search` as used by `Dict::encode`
(`src/lib.rs` line 229).  `Dict.codes` is strictly sorted, and on a sorted
duplicate-free slice Rust's binary search is uniquely determined: it returns
`Ok idx` when the query sits at index `idx` and `Err idx` with `idx` the
insertion point otherwise.  This function computes that result (first
component: index; second component: whether the search hit). -/
def searchSorted (codes : List T) (q : T) : Nat × Bool :=
  match codes with
  | [] => (0, false)
  | c :: rest =>
    if q < c then (0, false)
    else if q = c then (0, true)
    else
      let r := searchSorted rest q
      (r.1 + 1, r.2)

/-- Embeds `Dict::encode` (`src/lib.rs` lines 222-235): a hit at `idx`
yields exact code `2*(idx+1)`, a miss at insertion point `idx` yields
inexact code `2*(idx+1) - 1`. -/
def Dict.encode (d : Dict T) (q : T) : Nat :=
  match searchSorted d.codes q with
  | (idx, true) => 2 * (idx + 1)
  | (idx, false) => 2 * (idx + 1) - 1

/-- Embeds the inner `while` loop of `Dict::assign_codes_with_step`
(`src/lib.rs` lines 244-250).  The list argument is the tail of the cluster
vector starting at `last_idx`; `best` is `clu[idx_with_max_val]` and `sum`
is `cluster_count_sum`.  Returns the selected cluster together with the tail
starting at `last_idx + 1` (the source continues from there). -/
def window (codestep : Nat) : List (Cluster T) → Cluster T → Nat → Cluster T × List (Cluster T)
  | [], best, _ => (best, [])
  | c :: rest, best, sum =>
    if sum < codestep then
      window codestep rest (if best.count < c.count then c else best) (sum + c.count)
    else (best, rest)

omit [LinearOrder T] in
theorem window_snd_length_le (codestep : Nat) :
    ∀ (l : List (Cluster T)) (best : Cluster T) (sum : Nat),
      (window codestep l best sum).2.length ≤ l.length := by
  intro l
  induction l with
  | nil => intro best sum; simp [window]
  | cons c rest ih =>
    intro best sum
    simp only [window]
    by_cases h : sum < codestep
    · rw [if_pos h]
      exact Nat.le_trans (ih _ _) (Nat.le_succ _)
    · rw [if_neg h]
      exact Nat.le_succ _

omit [LinearOrder T] in
theorem window_snd_length_lt (codestep : Nat) (c : Cluster T) (rest : List (Cluster T))
    (best : Cluster T) (sum : Nat) :
    (window codestep (c :: rest) best sum).2.length < (c :: rest).length := by
  simp only [window]
  by_cases h : sum < codestep
  · rw [if_pos h]
    exact Nat.lt_succ_of_le (window_snd_length_le _ _ _ _)
  · rw [if_neg h]
    exact Nat.lt_succ_of_le (Nat.le_refl _)

/-- Embeds `Dict::assign_codes_with_step` (`src/lib.rs` lines 237-258): the
outer `while` loop over `first_idx`.  Each iteration opens a window at the
head of the remaining cluster list (`idx_with_max_val` starts at
`first_idx`, `cluster_count_sum` at `0`), pushes the selected value and
continues from `last_idx + 1`. -/
def assign_codes_with_step (codestep : Nat) (clu : List (Cluster T)) : List T :=
  match clu with
  | [] => []
  | c :: rest =>
    let r := window codestep (c :: rest) c 0
    r.1.value :: assign_codes_with_step codestep r.2
termination_by clu.length
decreasing_by
  simpa using window_snd_length_lt codestep c rest c 0

/-- Embeds `Vec::resize` (`src/lib.rs` line 300): truncate to length `n`,
padding with `fill` if the vector was shorter. -/
def listResize (l : List T) (n : Nat) (fill : T) : List T :=
  l.take n ++ List.replicate (n - l.length) fill

/-- Embeds the `codestep` update of `Dict::assign_codes_with_minimal_step`
(`src/lib.rs` lines 306-308): `bias = len * 10000 / ncodes` computed first,
then `codestep *= bias; codestep /= 10000`. -/
def nextStep (codestep len ncodes : Nat) : Nat :=
  codestep * (len * 10000 / ncodes) / 10000

/-- Stated from the words of the specification (section 4.2.2.c), for
comparison with `nextStep`: the spec writes the update as
`step := (step * codes.len() * 10_000 / N) / 10_000`, which groups as
`((step * len * 10000) / N) / 10000`. -/
def nextStepClaimed (codestep len ncodes : Nat) : Nat :=
  codestep * len * 10000 / ncodes / 10000

/-- Embeds the calibration loop `for _ in 0..=8` of
`Dict::assign_codes_with_minimal_step` (`src/lib.rs` lines 290-322); `fuel`
counts the remaining iterations (9 at the initial call). -/
def calibrate (ncodes : Nat) (clu : List (Cluster T)) (dflt : T) :
    Nat → Nat → List T → List T
  | 0, _, codes => codes
  | fuel + 1, codestep, codes =>
    if codes.length = ncodes then codes
    else if ncodes < codes.length then listResize codes ncodes dflt
    else
      let codestep2 := nextStep codestep codes.length ncodes
      let next := assign_codes_with_step codestep2 clu
      if next.length ≤ ncodes then calibrate ncodes clu dflt fuel codestep2 next
      else codes

/-- Embeds `Dict::assign_codes_with_minimal_step` (`src/lib.rs` lines
260-324): initial step `samplesize / ncodes`, one assignment pass, then the
calibration loop with 9 iterations. -/
def assign_codes_with_minimal_step (samplesize ncodes : Nat) (clu : List (Cluster T))
    (dflt : T) : List T :=
  let codestep := samplesize / ncodes
  let codes := assign_codes_with_step codestep clu
  calibrate ncodes clu dflt 9 codestep codes

/-- Embeds `Dict::new` (`src/lib.rs` lines 338-386).  `dflt` stands for
`<T as Default>::default()`; `List.insertionSort (· ≤ ·)` models the
in-place `sort_unstable`. -/
def Dict.new (mode : Mode) (sample : List T) (dflt : T) : Dict T :=
  if sample = [] then ⟨mode, [dflt]⟩
  else
    let sorted := List.insertionSort (· ≤ ·) sample
    let clu := clusters sorted
    let ncodes := mode.num_exact_codes
    if clu.length ≤ ncodes then ⟨mode, List.map Cluster.value clu⟩
    else ⟨mode, assign_codes_with_minimal_step sample.length ncodes clu dflt⟩

/-- The `idx_with_max_val` selection as a standalone fold: starting from a
candidate `best`, scan a list of clusters and keep the current cluster
whenever it has a strictly larger count (`src/lib.rs` lines 245-247).  Used
to state what `window` selects. -/
def pickMax : Cluster T → List (Cluster T) → Cluster T
  | best, [] => best
  | best, c :: rest => pickMax (if best.count < c.count then c else best) rest

/-- Stated from the words of the specification (section 4.2.1), for
comparison with `window`: the number of clusters a window absorbs before it
closes, i.e. the length of the shortest prefix whose cumulative count
reaches `step` (the whole list if the sequence ends first). -/
def winLen (step : Nat) : List (Cluster T) → Nat
  | [] => 0
  | c :: rest => if step = 0 then 0 else winLen (step - c.count) rest + 1

omit [LinearOrder T] in
theorem winLen_le (step : Nat) :
    ∀ l : List (Cluster T), winLen step l ≤ l.length := by
  intro l
  induction l generalizing step with
  | nil => simp [winLen]
  | cons c rest ih =>
    simp only [winLen, List.length_cons]
    by_cases h : step = 0
    · simp [h]
    · rw [if_neg h]
      have := ih (step - c.count)
      omega

/-- Stated from the words of claim C6 / specification section 4.2.1, for
comparison with `assign_codes_with_step`: each window is the shortest
non-empty prefix of the remaining clusters whose cumulative count reaches
`step` (or all of them if the sequence ends first); the window emits the
value of its cluster of maximum count, earliest first on ties, and the
single cluster immediately after the closed window is skipped. -/
def claimedAssign (step : Nat) (clu : List (Cluster T)) : List T :=
  match clu with
  | [] => []
  | c :: rest =>
    let k := max 1 (winLen step (c :: rest))
    (pickMax c (rest.take (k - 1))).value :: claimedAssign step ((c :: rest).drop (k + 1))
termination_by clu.length
decreasing_by
  simp only [List.length_drop, List.length_cons]
  omega

/-! ### Properties of `pickMax` and `window` -/

omit [LinearOrder T] in
/-- `pickMax best l` selects the element of maximum count in `best :: l`,
earliest first on count ties: the scan is split as everything strictly
before the selected cluster (all of strictly smaller count) and everything
after it (all of count at most the selected one). -/
theorem pickMax_spec (b : Cluster T) (l : List (Cluster T)) :
    ∃ l₁ l₂, b :: l = l₁ ++ pickMax b l :: l₂
      ∧ (∀ x ∈ l₁, x.count < (pickMax b l).count)
      ∧ (∀ x ∈ b :: l, x.count ≤ (pickMax b l).count) := by
  induction l generalizing b with
  | nil =>
    refine ⟨[], [], by simp [pickMax], by simp, ?_⟩
    intro x hx
    simp only [List.mem_singleton] at hx
    simp [hx, pickMax]
  | cons c rest ih =>
    simp only [pickMax]
    by_cases h : b.count < c.count
    · rw [if_pos h]
      obtain ⟨l₁, l₂, hdec, hlt, hle⟩ := ih c
      have hcle : c.count ≤ (pickMax c rest).count := hle c (List.mem_cons_self c rest)
      refine ⟨b :: l₁, l₂, ?_, ?_, ?_⟩
      · rw [List.cons_append, ← hdec]
      · intro x hx
        rcases List.mem_cons.mp hx with hxb | hx1
        · exact hxb ▸ Nat.lt_of_lt_of_le h hcle
        · exact hlt x hx1
      · intro x hx
        rcases List.mem_cons.mp hx with hxb | hx1
        · exact hxb ▸ Nat.le_of_lt (Nat.lt_of_lt_of_le h hcle)
        · exact hle x hx1
    · rw [if_neg h]
      obtain ⟨l₁, l₂, hdec, hlt, hle⟩ := ih b
      cases l₁ with
      | nil =>
        simp only [List.nil_append] at hdec
        have hb : pickMax b rest = b := (List.cons.injEq _ _ _ _ ▸ hdec).1.symm
        have hl₂ : l₂ = rest := (List.cons.injEq _ _ _ _ ▸ hdec).2.symm
        refine ⟨[], c :: rest, by simp [hb], by simp, ?_⟩
        intro x hx
        rw [hb]
        rcases List.mem_cons.mp hx with hxb | hx1
        · rw [hxb]
        · rcases List.mem_cons.mp hx1 with hxc | hx2
          · rw [hxc]; omega
          · have := hle x (List.mem_cons_of_mem b hx2)
            rw [hb] at this
            exact this
      | cons a t =>
        have ha : a = b := by
          have := hdec
          simp only [List.cons_append, List.cons.injEq] at this
          exact this.1.symm
        have hrest : rest = t ++ pickMax b rest :: l₂ := by
          have := hdec
          simp only [List.cons_append, List.cons.injEq] at this
          exact this.2
        have hbm : b.count < (pickMax b rest).count :=
          hlt b (ha ▸ List.mem_cons_self a t)
        refine ⟨b :: c :: t, l₂, ?_, ?_, ?_⟩
        · conv_lhs => rw [hrest]
          simp
        · intro x hx
          rcases List.mem_cons.mp hx with hxb | hx1
          · rw [hxb]; exact hbm
          · rcases List.mem_cons.mp hx1 with hxc | hx2
            · subst hxc; omega
            · exact hlt x (List.mem_cons_of_mem a hx2)
        · intro x hx
          rcases List.mem_cons.mp hx with hxb | hx1
          · rw [hxb]; exact Nat.le_of_lt hbm
          · rcases List.mem_cons.mp hx1 with hxc | hx2
            · subst hxc; omega
            · exact hle x (List.mem_cons_of_mem b hx2)

omit [LinearOrder T] in
/-- `window` absorbs exactly the `winLen`-shortest prefix whose cumulative
count (on top of the running `sum`) reaches `codestep`, selects via the
`pickMax` fold, and resumes after additionally skipping one cluster. -/
theorem window_eq (codestep : Nat) :
    ∀ (l : List (Cluster T)) (best : Cluster T) (sum : Nat),
      window codestep l best sum =
        (pickMax best (l.take (winLen (codestep - sum) l)),
         l.drop (winLen (codestep - sum) l + 1)) := by
  intro l
  induction l with
  | nil => intro best sum; simp [window, winLen, pickMax]
  | cons c rest ih =>
    intro best sum
    simp only [window, winLen]
    by_cases h : sum < codestep
    · rw [if_pos h, if_neg (show ¬codestep - sum = 0 by omega), ih]
      have hsub : codestep - (sum + c.count) = codestep - sum - c.count := by omega
      rw [hsub]
      simp [List.take_succ_cons, List.drop_succ_cons, pickMax]
    · rw [if_neg h, if_pos (show codestep - sum = 0 by omega)]
      simp [winLen, pickMax]

omit [LinearOrder T] in
theorem window_cons_self (codestep : Nat) (c : Cluster T) (rest : List (Cluster T)) :
    window codestep (c :: rest) c 0 =
      if 0 < codestep then window codestep rest c c.count else (c, rest) := by
  simp only [window]
  by_cases h : 0 < codestep
  · rw [if_pos h, if_pos h]
    simp
  · rw [if_neg h, if_neg h]

theorem window_pairwise (codestep : Nat) :
    ∀ (l : List (Cluster T)) (best : Cluster T) (sum : Nat),
      List.Pairwise (fun x y => x.value < y.value) (best :: l) →
      List.Pairwise (fun x y => x.value < y.value)
        ((window codestep l best sum).1 :: (window codestep l best sum).2) := by
  intro l
  induction l with
  | nil =>
    intro best sum h
    simp only [window]
    exact h
  | cons c rest ih =>
    intro best sum h
    simp only [window]
    by_cases hs : sum < codestep
    · simp only [if_pos hs]
      apply ih
      by_cases hc : best.count < c.count
      · rw [if_pos hc]
        exact h.of_cons
      · rw [if_neg hc]
        exact h.sublist ((List.sublist_cons_self c rest).cons_cons best)
    · simp only [if_neg hs]
      exact h.sublist ((List.sublist_cons_self c rest).cons_cons best)

omit [LinearOrder T] in
theorem window_fst_mem (codestep : Nat) :
    ∀ (l : List (Cluster T)) (best : Cluster T) (sum : Nat),
      (window codestep l best sum).1 ∈ best :: l := by
  intro l
  induction l with
  | nil => intro best sum; simp [window]
  | cons c rest ih =>
    intro best sum
    simp only [window]
    by_cases hs : sum < codestep
    · simp only [if_pos hs]
      by_cases hc : best.count < c.count
      · rw [if_pos hc]
        rcases List.mem_cons.mp (ih c (sum + c.count)) with hh | hh
        · rw [hh]
          exact List.mem_cons_of_mem best (List.mem_cons_self c rest)
        · exact List.mem_cons_of_mem best (List.mem_cons_of_mem c hh)
      · rw [if_neg hc]
        rcases List.mem_cons.mp (ih best (sum + c.count)) with hh | hh
        · rw [hh]
          exact List.mem_cons_self best (c :: rest)
        · exact List.mem_cons_of_mem best (List.mem_cons_of_mem c hh)
    · simp only [if_neg hs]
      exact List.mem_cons_self best (c :: rest)

omit [LinearOrder T] in
theorem window_snd_subset (codestep : Nat) :
    ∀ (l : List (Cluster T)) (best : Cluster T) (sum : Nat),
      ∀ x ∈ (window codestep l best sum).2, x ∈ l := by
  intro l
  induction l with
  | nil => intro best sum x hx; simp [window] at hx
  | cons c rest ih =>
    intro best sum x hx
    simp only [window] at hx
    by_cases hs : sum < codestep
    · rw [if_pos hs] at hx
      exact List.mem_cons_of_mem c (ih _ _ x hx)
    · rw [if_neg hs] at hx
      exact List.mem_cons_of_mem c hx

/-! ### Properties of `assign_codes_with_step` -/

omit [LinearOrder T] in
theorem assign_nil (codestep : Nat) :
    assign_codes_with_step codestep ([] : List (Cluster T)) = [] := by
  rw [assign_codes_with_step]

omit [LinearOrder T] in
theorem assign_cons (codestep : Nat) (c : Cluster T) (rest : List (Cluster T)) :
    assign_codes_with_step codestep (c :: rest) =
      (window codestep (c :: rest) c 0).1.value ::
        assign_codes_with_step codestep (window codestep (c :: rest) c 0).2 := by
  rw [assign_codes_with_step]

omit [LinearOrder T] in
theorem assign_ne_nil (codestep : Nat) (clu : List (Cluster T)) (h : clu ≠ []) :
    assign_codes_with_step codestep clu ≠ [] := by
  cases clu with
  | nil => exact absurd rfl h
  | cons c rest => rw [assign_cons]; simp

omit [LinearOrder T] in
theorem assign_mem_aux (codestep : Nat) :
    ∀ (n : Nat) (clu : List (Cluster T)), clu.length ≤ n →
      ∀ v ∈ assign_codes_with_step codestep clu, ∃ c ∈ clu, v = c.value := by
  intro n
  induction n with
  | zero =>
    intro clu hn v hv
    rw [List.length_eq_zero.mp (Nat.le_zero.mp hn), assign_nil] at hv
    exact absurd hv (List.not_mem_nil v)
  | succ n ih =>
    intro clu hn v hv
    cases clu with
    | nil =>
      rw [assign_nil] at hv
      exact absurd hv (List.not_mem_nil v)
    | cons c rest =>
      rw [assign_cons] at hv
      rcases List.mem_cons.mp hv with hv | hv
      · refine ⟨(window codestep (c :: rest) c 0).1, ?_, hv⟩
        rcases List.mem_cons.mp (window_fst_mem codestep (c :: rest) c 0) with hh | hh
        · rw [hh]; exact List.mem_cons_self c rest
        · exact hh
      · have hlen : (window codestep (c :: rest) c 0).2.length ≤ n := by
          have := window_snd_length_lt codestep c rest c 0
          simp only [List.length_cons] at this hn
          omega
        obtain ⟨x, hx, hxv⟩ := ih _ hlen v hv
        exact ⟨x, window_snd_subset codestep (c :: rest) c 0 x hx, hxv⟩

omit [LinearOrder T] in
theorem assign_mem (codestep : Nat) (clu : List (Cluster T)) :
    ∀ v ∈ assign_codes_with_step codestep clu, ∃ c ∈ clu, v = c.value :=
  assign_mem_aux codestep clu.length clu (Nat.le_refl _)

theorem assign_pairwise_aux (codestep : Nat) :
    ∀ (n : Nat) (clu : List (Cluster T)), clu.length ≤ n →
      List.Pairwise (fun x y => x.value < y.value) clu →
      List.Pairwise (· < ·) (assign_codes_with_step codestep clu) := by
  intro n
  induction n with
  | zero =>
    intro clu hn _
    rw [List.length_eq_zero.mp (Nat.le_zero.mp hn), assign_nil]
    exact List.Pairwise.nil
  | succ n ih =>
    intro clu hn hp
    cases clu with
    | nil => rw [assign_nil]; exact List.Pairwise.nil
    | cons c rest =>
      rw [assign_cons]
      have hw : List.Pairwise (fun x y : Cluster T => x.value < y.value)
          ((window codestep (c :: rest) c 0).1 :: (window codestep (c :: rest) c 0).2) := by
        rw [window_cons_self]
        by_cases hs : 0 < codestep
        · rw [if_pos hs]
          exact window_pairwise codestep rest c c.count hp
        · rw [if_neg hs]
          exact hp
      have hlen : (window codestep (c :: rest) c 0).2.length ≤ n := by
        have := window_snd_length_lt codestep c rest c 0
        simp only [List.length_cons] at this hn
        omega
      refine List.pairwise_cons.mpr ⟨?_, ih _ hlen (hw.of_cons)⟩
      intro v hv
      obtain ⟨x, hx, hxv⟩ := assign_mem codestep _ v hv
      rw [hxv]
      exact (List.pairwise_cons.mp hw).1 x hx

theorem assign_pairwise (codestep : Nat) (clu : List (Cluster T))
    (hp : List.Pairwise (fun x y => x.value < y.value) clu) :
    List.Pairwise (· < ·) (assign_codes_with_step codestep clu) :=
  assign_pairwise_aux codestep clu.length clu (Nat.le_refl _) hp

omit [LinearOrder T] in
/-- With step `0` the inner loop never runs, so every cluster value is
emitted and no cluster is skipped. -/
theorem assign_zero (clu : List (Cluster T)) :
    assign_codes_with_step 0 clu = List.map Cluster.value clu := by
  induction clu with
  | nil => rw [assign_nil]; rfl
  | cons c rest ih =>
    rw [assign_cons, window_cons_self]
    simp only [Nat.lt_irrefl 0, if_false]
    rw [List.map_cons, ih]

omit [LinearOrder T] in
theorem claimed_cons (step : Nat) (c : Cluster T) (rest : List (Cluster T)) :
    claimedAssign step (c :: rest) =
      (pickMax c (rest.take (max 1 (winLen step (c :: rest)) - 1))).value ::
        claimedAssign step ((c :: rest).drop (max 1 (winLen step (c :: rest)) + 1)) := by
  rw [claimedAssign]

omit [LinearOrder T] in
theorem claimed_nil (step : Nat) :
    claimedAssign step ([] : List (Cluster T)) = [] := by
  rw [claimedAssign]

omit [LinearOrder T] in
theorem assign_eq_claimed_aux (step : Nat) (hs : 0 < step) :
    ∀ (n : Nat) (clu : List (Cluster T)), clu.length ≤ n →
      assign_codes_with_step step clu = claimedAssign step clu := by
  intro n
  induction n with
  | zero =>
    intro clu hn
    rw [List.length_eq_zero.mp (Nat.le_zero.mp hn), assign_nil, claimed_nil]
  | succ n ih =>
    intro clu hn
    cases clu with
    | nil => rw [assign_nil, claimed_nil]
    | cons c rest =>
      rw [assign_cons, claimed_cons, window_cons_self, if_pos hs, window_eq]
      have hk : winLen step (c :: rest) = winLen (step - c.count) rest + 1 := by
        rw [winLen, if_neg (Nat.pos_iff_ne_zero.mp hs)]
      have hmax : max 1 (winLen step (c :: rest)) = winLen (step - c.count) rest + 1 := by
        rw [hk]; omega
      rw [hmax]
      simp only [Nat.add_sub_cancel, List.drop_succ_cons]
      have hlen : (rest.drop (winLen (step - c.count) rest + 1)).length ≤ n := by
        simp only [List.length_drop, List.length_cons] at *
        omega
      rw [ih _ hlen]

omit [LinearOrder T] in
/-- For every positive step, the assignment pass behaves exactly as the
claimed window description. -/
theorem assign_eq_claimed (step : Nat) (hs : 0 < step) (clu : List (Cluster T)) :
    assign_codes_with_step step clu = claimedAssign step clu :=
  assign_eq_claimed_aux step hs clu.length clu (Nat.le_refl _)

/-! ### Properties of `clusters` -/

theorem clustersAux_ne_nil :
    ∀ (l : List T) (curr : T) (count : Nat), clustersAux curr count l ≠ [] := by
  intro l
  induction l with
  | nil => intro curr count; simp [clustersAux]
  | cons i rest ih =>
    intro curr count
    simp only [clustersAux]
    by_cases h : i = curr
    · rw [if_pos h]; exact ih curr (count + 1)
    · rw [if_neg h]; simp

theorem clustersAux_value_mem :
    ∀ (l : List T) (curr : T) (count : Nat),
      ∀ c ∈ clustersAux curr count l, c.value ∈ curr :: l := by
  intro l
  induction l with
  | nil =>
    intro curr count c hc
    simp only [clustersAux, List.mem_singleton] at hc
    rw [hc]
    exact List.mem_cons_self _ _
  | cons i rest ih =>
    intro curr count c hc
    simp only [clustersAux] at hc
    by_cases h : i = curr
    · rw [if_pos h] at hc
      rcases List.mem_cons.mp (ih curr (count + 1) c hc) with hh | hh
      · rw [hh]; exact List.mem_cons_self _ _
      · exact List.mem_cons_of_mem curr (List.mem_cons_of_mem i hh)
    · rw [if_neg h] at hc
      rcases List.mem_cons.mp hc with hh | hh
      · rw [hh]; exact List.mem_cons_self _ _
      · rcases List.mem_cons.mp (ih i 1 c hh) with hhh | hhh
        · rw [hhh]; exact List.mem_cons_of_mem curr (List.mem_cons_self _ _)
        · exact List.mem_cons_of_mem curr (List.mem_cons_of_mem i hhh)

theorem clustersAux_count_pos :
    ∀ (l : List T) (curr : T) (count : Nat), 0 < count →
      ∀ c ∈ clustersAux curr count l, 0 < c.count := by
  intro l
  induction l with
  | nil =>
    intro curr count hcount c hc
    simp only [clustersAux, List.mem_singleton] at hc
    rw [hc]
    exact hcount
  | cons i rest ih =>
    intro curr count hcount c hc
    simp only [clustersAux] at hc
    by_cases h : i = curr
    · rw [if_pos h] at hc
      exact ih curr (count + 1) (Nat.succ_pos count) c hc
    · rw [if_neg h] at hc
      rcases List.mem_cons.mp hc with hh | hh
      · rw [hh]; exact hcount
      · exact ih i 1 Nat.one_pos c hh

theorem clustersAux_sum :
    ∀ (l : List T) (curr : T) (count : Nat),
      (List.map Cluster.count (clustersAux curr count l)).sum = count + l.length := by
  intro l
  induction l with
  | nil => intro curr count; simp [clustersAux]
  | cons i rest ih =>
    intro curr count
    simp only [clustersAux]
    by_cases h : i = curr
    · rw [if_pos h, ih curr (count + 1)]
      simp only [List.length_cons]
      omega
    · rw [if_neg h]
      simp only [List.map_cons, List.sum_cons, ih i 1, List.length_cons]
      omega

theorem clustersAux_length :
    ∀ (l : List T) (curr : T) (count : Nat),
      (clustersAux curr count l).length ≤ 1 + l.length := by
  intro l
  induction l with
  | nil => intro curr count; simp [clustersAux]
  | cons i rest ih =>
    intro curr count
    simp only [clustersAux]
    by_cases h : i = curr
    · rw [if_pos h]
      have := ih curr (count + 1)
      simp only [List.length_cons]
      omega
    · rw [if_neg h]
      have := ih i 1
      simp only [List.length_cons]
      omega

theorem clustersAux_pairwise :
    ∀ (l : List T) (curr : T) (count : Nat),
      List.Pairwise (· ≤ ·) (curr :: l) →
      List.Pairwise (fun x y : Cluster T => x.value < y.value) (clustersAux curr count l) := by
  intro l
  induction l with
  | nil => intro curr count _; simp [clustersAux]
  | cons i rest ih =>
    intro curr count hp
    simp only [clustersAux]
    by_cases h : i = curr
    · rw [if_pos h]
      exact ih curr (count + 1)
        (hp.sublist ((List.sublist_cons_self i rest).cons_cons curr))
    · rw [if_neg h]
      have hci : curr < i := by
        have hle : curr ≤ i := (List.pairwise_cons.mp hp).1 i (List.mem_cons_self i rest)
        exact lt_of_le_of_ne hle (fun he => h he.symm)
      refine List.pairwise_cons.mpr ⟨?_, ih i 1 hp.of_cons⟩
      intro x hx
      rcases List.mem_cons.mp (clustersAux_value_mem rest i 1 x hx) with hh | hh
      · rw [hh]; exact hci
      · have : i ≤ x.value := (List.pairwise_cons.mp hp.of_cons).1 x.value hh
        exact lt_of_lt_of_le hci this

theorem clustersAux_all_eq :
    ∀ (l : List T) (curr : T) (count : Nat), (∀ y ∈ l, y = curr) →
      clustersAux curr count l = [⟨curr, count + l.length⟩] := by
  intro l
  induction l with
  | nil => intro curr count _; simp [clustersAux]
  | cons i rest ih =>
    intro curr count hall
    simp only [clustersAux]
    rw [if_pos (hall i (List.mem_cons_self i rest))]
    rw [ih curr (count + 1) (fun y hy => hall y (List.mem_cons_of_mem i hy))]
    have hc : count + 1 + rest.length = count + (i :: rest).length := by
      simp only [List.length_cons]
      omega
    rw [hc]

theorem clustersAux_all_distinct :
    ∀ (l : List T) (curr : T) (count : Nat),
      (∀ y ∈ l, curr < y) → List.Pairwise (· < ·) l →
      clustersAux curr count l =
        ⟨curr, count⟩ :: List.map (fun v => (⟨v, 1⟩ : Cluster T)) l := by
  intro l
  induction l with
  | nil => intro curr count _ _; simp [clustersAux]
  | cons i rest ih =>
    intro curr count hall hp
    simp only [clustersAux]
    have hci : curr < i := hall i (List.mem_cons_self i rest)
    have hne : ¬i = curr := by
      intro he
      rw [he] at hci
      exact lt_irrefl curr hci
    rw [if_neg hne]
    rw [ih i 1 (fun y hy => (List.pairwise_cons.mp hp).1 y hy) hp.of_cons]
    simp

theorem clusters_cons_eq (x : T) (rest : List T) :
    clusters (x :: rest) = clustersAux x 1 rest := by
  simp [clusters, clustersAux]

theorem clusters_ne_nil (l : List T) (h : l ≠ []) : clusters l ≠ [] := by
  cases l with
  | nil => exact absurd rfl h
  | cons x rest => rw [clusters_cons_eq]; exact clustersAux_ne_nil rest x 1

theorem clusters_value_mem (l : List T) : ∀ c ∈ clusters l, c.value ∈ l := by
  cases l with
  | nil => intro c hc; simp [clusters] at hc
  | cons x rest =>
    rw [clusters_cons_eq]
    exact clustersAux_value_mem rest x 1

theorem clusters_count_pos (l : List T) : ∀ c ∈ clusters l, 0 < c.count := by
  cases l with
  | nil => intro c hc; simp [clusters] at hc
  | cons x rest =>
    rw [clusters_cons_eq]
    exact clustersAux_count_pos rest x 1 Nat.one_pos

theorem clusters_sum (l : List T) :
    (List.map Cluster.count (clusters l)).sum = l.length := by
  cases l with
  | nil => simp [clusters]
  | cons x rest =>
    rw [clusters_cons_eq, clustersAux_sum]
    simp only [List.length_cons]
    omega

theorem clusters_length_le (l : List T) : (clusters l).length ≤ l.length := by
  cases l with
  | nil => simp [clusters]
  | cons x rest =>
    rw [clusters_cons_eq]
    have := clustersAux_length rest x 1
    simp only [List.length_cons]
    omega

theorem clusters_pairwise (l : List T) (hs : List.Sorted (· ≤ ·) l) :
    List.Pairwise (fun x y : Cluster T => x.value < y.value) (clusters l) := by
  cases l with
  | nil => simp [clusters]
  | cons x rest =>
    rw [clusters_cons_eq]
    exact clustersAux_pairwise rest x 1 hs

/-! ### Properties of `searchSorted` and `Dict.encode` -/

/-- The number of entries of `codes` strictly below the query: the index a
binary search over a strictly sorted `codes` lands on. -/
def rank (codes : List T) (q : T) : Nat := codes.countP (fun c => decide (c < q))

theorem rank_le_length (codes : List T) (q : T) : rank codes q ≤ codes.length :=
  List.countP_le_length _

theorem rank_mono (codes : List T) {a b : T} (h : a ≤ b) :
    rank codes a ≤ rank codes b := by
  unfold rank
  refine List.countP_mono_left ?_
  intro c _ hc
  simp only [decide_eq_true_eq] at hc ⊢
  exact lt_of_lt_of_le hc h

theorem rank_succ_le_of_mem {codes : List T}
    (hp : List.Pairwise (· < ·) codes) {a b : T} (hb : b ∈ codes) (h : b < a) :
    rank codes b + 1 ≤ rank codes a := by
  induction codes with
  | nil => exact absurd hb (List.not_mem_nil b)
  | cons c rest ih =>
    rcases List.mem_cons.mp hb with hbc | hbr
    · have hb0 : rank (c :: rest) b = 0 := by
        unfold rank
        rw [List.countP_eq_zero]
        intro x hx
        simp only [decide_eq_true_eq]
        rcases List.mem_cons.mp hx with hxc | hxr
        · rw [hxc, hbc]; exact lt_irrefl c
        · have : c < x := (List.pairwise_cons.mp hp).1 x hxr
          rw [hbc]
          exact not_lt_of_lt this
      have ha1 : rank rest a + 1 ≤ rank (c :: rest) a := by
        unfold rank
        rw [List.countP_cons_of_pos]
        simp only [decide_eq_true_eq]
        rw [← hbc]
        exact h
      have := rank_le_length rest a
      omega
    · have := ih hp.of_cons hbr
      have hcb : c < b := (List.pairwise_cons.mp hp).1 b hbr
      have hca : c < a := lt_trans hcb h
      unfold rank at *
      rw [List.countP_cons_of_pos _ _ (by simp [hcb]),
        List.countP_cons_of_pos _ _ (by simp [hca])]
      omega

theorem rank_lt_length_of_mem {codes : List T} {q : T} (h : q ∈ codes) :
    rank codes q < codes.length := by
  rcases Nat.lt_or_ge (rank codes q) codes.length with hlt | hge
  · exact hlt
  · exfalso
    have heq : rank codes q = codes.length :=
      Nat.le_antisymm (rank_le_length codes q) hge
    have hall := List.countP_eq_length.mp heq q h
    simp only [decide_eq_true_eq] at hall
    exact lt_irrefl q hall

theorem rank_eq_length {codes : List T} {q : T} (h : ∀ c ∈ codes, c < q) :
    rank codes q = codes.length := by
  unfold rank
  rw [List.countP_eq_length]
  intro c hc
  simp only [decide_eq_true_eq]
  exact h c hc

theorem searchSorted_eq {codes : List T} (hp : List.Pairwise (· < ·) codes) (q : T) :
    searchSorted codes q = (rank codes q, decide (q ∈ codes)) := by
  induction codes with
  | nil => simp [searchSorted, rank]
  | cons c rest ih =>
    simp only [searchSorted]
    by_cases h1 : q < c
    · rw [if_pos h1]
      have hr : rank (c :: rest) q = 0 := by
        unfold rank
        rw [List.countP_eq_zero]
        intro x hx
        simp only [decide_eq_true_eq]
        rcases List.mem_cons.mp hx with hxc | hxr
        · rw [hxc]; exact not_lt_of_lt h1
        · have : c < x := (List.pairwise_cons.mp hp).1 x hxr
          exact not_lt_of_lt (lt_trans h1 this)
      have hm : ¬q ∈ c :: rest := by
        intro hmem
        rcases List.mem_cons.mp hmem with hqc | hqr
        · rw [hqc] at h1; exact lt_irrefl c h1
        · have : c < q := (List.pairwise_cons.mp hp).1 q hqr
          exact absurd h1 (not_lt_of_lt this)
      simp [hr, hm]
    · rw [if_neg h1]
      by_cases h2 : q = c
      · rw [if_pos h2]
        have hr : rank (c :: rest) q = 0 := by
          unfold rank
          rw [List.countP_eq_zero]
          intro x hx
          simp only [decide_eq_true_eq]
          rcases List.mem_cons.mp hx with hxc | hxr
          · rw [hxc, h2]; exact lt_irrefl c
          · have : c < x := (List.pairwise_cons.mp hp).1 x hxr
            rw [h2]
            exact not_lt_of_lt this
        have hm : q ∈ c :: rest := by rw [h2]; exact List.mem_cons_self c rest
        simp [hr, hm]
      · rw [if_neg h2]
        have hcq : c < q := by
          rcases lt_trichotomy q c with h | h | h
          · exact absurd h h1
          · exact absurd h h2
          · exact h
        rw [ih hp.of_cons]
        have hr : rank (c :: rest) q = rank rest q + 1 := by
          unfold rank
          rw [List.countP_cons_of_pos _ _ (by simp [hcq])]
        have hm : (q ∈ c :: rest) = (q ∈ rest) := by
          simp only [List.mem_cons, eq_iff_iff]
          constructor
          · intro h
            rcases h with h | h
            · exact absurd h h2
            · exact h
          · intro h
            exact Or.inr h
        rw [hr]
        congr 1
        exact decide_eq_decide.mpr (by rw [hm])

theorem encode_eq (d : Dict T) (hp : List.Pairwise (· < ·) d.codes) (q : T) :
    d.encode q =
      if q ∈ d.codes then 2 * (rank d.codes q + 1) else 2 * rank d.codes q + 1 := by
  unfold Dict.encode
  rw [searchSorted_eq hp]
  by_cases hm : q ∈ d.codes
  · rw [decide_eq_true hm, if_pos hm]
  · rw [decide_eq_false hm, if_neg hm]
    show 2 * (rank d.codes q + 1) - 1 = 2 * rank d.codes q + 1
    omega

theorem encode_le_of_lt (d : Dict T) (hp : List.Pairwise (· < ·) d.codes)
    {a b : T} (h : a < b) : d.encode a ≤ d.encode b := by
  rw [encode_eq d hp, encode_eq d hp]
  have h1 : rank d.codes a ≤ rank d.codes b := rank_mono _ (le_of_lt h)
  by_cases ha : a ∈ d.codes
  · have h2 : rank d.codes a + 1 ≤ rank d.codes b := rank_succ_le_of_mem hp ha h
    split_ifs <;> omega
  · split_ifs <;> omega

theorem encode_lt_of_mem_left (d : Dict T) (hp : List.Pairwise (· < ·) d.codes)
    {a b : T} (ha : a ∈ d.codes) (h : a < b) : d.encode a < d.encode b := by
  rw [encode_eq d hp, encode_eq d hp]
  have h2 : rank d.codes a + 1 ≤ rank d.codes b := rank_succ_le_of_mem hp ha h
  split_ifs <;> omega

theorem encode_lt_of_mem_right (d : Dict T) (hp : List.Pairwise (· < ·) d.codes)
    {a b : T} (hb : b ∈ d.codes) (h : a < b) : d.encode a < d.encode b := by
  rw [encode_eq d hp, encode_eq d hp]
  have h1 : rank d.codes a ≤ rank d.codes b := rank_mono _ (le_of_lt h)
  by_cases ha : a ∈ d.codes
  · have h2 : rank d.codes a + 1 ≤ rank d.codes b := rank_succ_le_of_mem hp ha h
    split_ifs <;> omega
  · split_ifs <;> omega

theorem lt_of_encode_lt (d : Dict T) (hp : List.Pairwise (· < ·) d.codes)
    {a b : T} (h : d.encode a < d.encode b) : a < b := by
  rcases lt_trichotomy a b with hab | hab | hab
  · exact hab
  · rw [hab] at h; exact absurd h (lt_irrefl _)
  · exact absurd h (not_lt_of_le (encode_le_of_lt d hp hab))

theorem is_exact_iff_even (n : Nat) : Code.is_exact n = true ↔ n % 2 = 0 := by
  unfold Code.is_exact
  rw [Nat.and_one_is_mod]
  simp

theorem encode_exact_iff_mem (d : Dict T) (hp : List.Pairwise (· < ·) d.codes)
    (q : T) : Code.is_exact (d.encode q) = true ↔ q ∈ d.codes := by
  rw [is_exact_iff_even, encode_eq d hp]
  by_cases hm : q ∈ d.codes
  · rw [if_pos hm]
    constructor
    · intro _; exact hm
    · intro _; omega
  · rw [if_neg hm]
    constructor
    · intro h; omega
    · intro h; exact absurd h hm

/-! ### Properties of `calibrate`, `assign_codes_with_minimal_step` and `Dict.new` -/

omit [LinearOrder T] in
theorem listResize_eq_take (l : List T) (n : Nat) (fill : T) (h : n ≤ l.length) :
    listResize l n fill = l.take n := by
  unfold listResize
  rw [Nat.sub_eq_zero_of_le h]
  simp

omit [LinearOrder T] in
theorem calibrate_length_le (ncodes : Nat) (clu : List (Cluster T)) (dflt : T) :
    ∀ (fuel codestep : Nat) (codes : List T),
      0 < fuel ∨ codes.length ≤ ncodes →
      (calibrate ncodes clu dflt fuel codestep codes).length ≤ ncodes := by
  intro fuel
  induction fuel with
  | zero =>
    intro codestep codes h
    rcases h with h | h
    · exact absurd h (Nat.lt_irrefl 0)
    · exact h
  | succ fuel ih =>
    intro codestep codes _
    simp only [calibrate]
    by_cases h1 : codes.length = ncodes
    · rw [if_pos h1]; omega
    · rw [if_neg h1]
      by_cases h2 : ncodes < codes.length
      · rw [if_pos h2, listResize_eq_take _ _ _ (Nat.le_of_lt h2)]
        simp only [List.length_take]
        omega
      · rw [if_neg h2]
        by_cases h3 : (assign_codes_with_step (nextStep codestep codes.length ncodes) clu).length
            ≤ ncodes
        · rw [if_pos h3]
          exact ih _ _ (Or.inr h3)
        · rw [if_neg h3]
          omega

omit [LinearOrder T] in
theorem calibrate_ne_nil (ncodes : Nat) (clu : List (Cluster T)) (dflt : T)
    (hclu : clu ≠ []) (hn : 0 < ncodes) :
    ∀ (fuel codestep : Nat) (codes : List T), codes ≠ [] →
      calibrate ncodes clu dflt fuel codestep codes ≠ [] := by
  intro fuel
  induction fuel with
  | zero => intro codestep codes h; exact h
  | succ fuel ih =>
    intro codestep codes h
    simp only [calibrate]
    by_cases h1 : codes.length = ncodes
    · rw [if_pos h1]; exact h
    · rw [if_neg h1]
      by_cases h2 : ncodes < codes.length
      · rw [if_pos h2, listResize_eq_take _ _ _ (Nat.le_of_lt h2)]
        have : (codes.take ncodes).length = ncodes := by
          simp only [List.length_take]
          omega
        intro hc
        rw [hc] at this
        simp only [List.length_nil] at this
        omega
      · rw [if_neg h2]
        by_cases h3 : (assign_codes_with_step (nextStep codestep codes.length ncodes) clu).length
            ≤ ncodes
        · rw [if_pos h3]
          exact ih _ _ (assign_ne_nil _ clu hclu)
        · rw [if_neg h3]
          exact h

theorem calibrate_pairwise (ncodes : Nat) (clu : List (Cluster T)) (dflt : T)
    (hclu : List.Pairwise (fun x y => x.value < y.value) clu) :
    ∀ (fuel codestep : Nat) (codes : List T), List.Pairwise (· < ·) codes →
      List.Pairwise (· < ·) (calibrate ncodes clu dflt fuel codestep codes) := by
  intro fuel
  induction fuel with
  | zero => intro codestep codes h; exact h
  | succ fuel ih =>
    intro codestep codes h
    simp only [calibrate]
    by_cases h1 : codes.length = ncodes
    · rw [if_pos h1]; exact h
    · rw [if_neg h1]
      by_cases h2 : ncodes < codes.length
      · rw [if_pos h2, listResize_eq_take _ _ _ (Nat.le_of_lt h2)]
        exact h.sublist (List.take_sublist ncodes codes)
      · rw [if_neg h2]
        by_cases h3 : (assign_codes_with_step (nextStep codestep codes.length ncodes) clu).length
            ≤ ncodes
        · rw [if_pos h3]
          exact ih _ _ (assign_pairwise _ clu hclu)
        · rw [if_neg h3]
          exact h

omit [LinearOrder T] in
theorem calibrate_mem (ncodes : Nat) (clu : List (Cluster T)) (dflt : T)
    {P : T → Prop} (hassign : ∀ s, ∀ v ∈ assign_codes_with_step s clu, P v) :
    ∀ (fuel codestep : Nat) (codes : List T), (∀ v ∈ codes, P v) →
      ∀ v ∈ calibrate ncodes clu dflt fuel codestep codes, P v := by
  intro fuel
  induction fuel with
  | zero => intro codestep codes h; exact h
  | succ fuel ih =>
    intro codestep codes h
    simp only [calibrate]
    by_cases h1 : codes.length = ncodes
    · rw [if_pos h1]; exact h
    · rw [if_neg h1]
      by_cases h2 : ncodes < codes.length
      · rw [if_pos h2, listResize_eq_take _ _ _ (Nat.le_of_lt h2)]
        intro v hv
        exact h v (List.take_subset ncodes codes hv)
      · rw [if_neg h2]
        by_cases h3 : (assign_codes_with_step (nextStep codestep codes.length ncodes) clu).length
            ≤ ncodes
        · rw [if_pos h3]
          exact ih _ _ (hassign _)
        · rw [if_neg h3]
          exact h

omit [LinearOrder T] in
theorem amins_length_le (samplesize ncodes : Nat) (clu : List (Cluster T)) (dflt : T) :
    (assign_codes_with_minimal_step samplesize ncodes clu dflt).length ≤ ncodes := by
  unfold assign_codes_with_minimal_step
  exact calibrate_length_le ncodes clu dflt 9 _ _ (Or.inl (by omega))

omit [LinearOrder T] in
theorem amins_ne_nil (samplesize ncodes : Nat) (clu : List (Cluster T)) (dflt : T)
    (hclu : clu ≠ []) (hn : 0 < ncodes) :
    assign_codes_with_minimal_step samplesize ncodes clu dflt ≠ [] := by
  unfold assign_codes_with_minimal_step
  exact calibrate_ne_nil ncodes clu dflt hclu hn 9 _ _ (assign_ne_nil _ clu hclu)

theorem amins_pairwise (samplesize ncodes : Nat) (clu : List (Cluster T)) (dflt : T)
    (hclu : List.Pairwise (fun x y => x.value < y.value) clu) :
    List.Pairwise (· < ·) (assign_codes_with_minimal_step samplesize ncodes clu dflt) := by
  unfold assign_codes_with_minimal_step
  exact calibrate_pairwise ncodes clu dflt hclu 9 _ _ (assign_pairwise _ clu hclu)

omit [LinearOrder T] in
theorem amins_mem (samplesize ncodes : Nat) (clu : List (Cluster T)) (dflt : T) :
    ∀ v ∈ assign_codes_with_minimal_step samplesize ncodes clu dflt,
      ∃ c ∈ clu, v = c.value := by
  unfold assign_codes_with_minimal_step
  exact calibrate_mem ncodes clu dflt (fun s => assign_mem s clu) 9 _ _
    (assign_mem _ clu)

theorem num_exact_codes_pos (mode : Mode) : 0 < mode.num_exact_codes := by
  cases mode <;> decide

theorem insertionSort_ne_nil (sample : List T) (h : sample ≠ []) :
    List.insertionSort (· ≤ ·) sample ≠ [] := by
  intro hs
  have hlen := congrArg List.length hs
  rw [List.length_insertionSort] at hlen
  exact h (List.length_eq_zero.mp (by simpa using hlen))

theorem new_mode_eq (mode : Mode) (sample : List T) (dflt : T) :
    (Dict.new mode sample dflt).mode = mode := by
  unfold Dict.new
  dsimp only
  split_ifs <;> rfl

theorem new_codes_eq (mode : Mode) (sample : List T) (dflt : T) :
    (Dict.new mode sample dflt).codes =
      if sample = [] then [dflt]
      else if (clusters (List.insertionSort (· ≤ ·) sample)).length ≤ mode.num_exact_codes
        then List.map Cluster.value (clusters (List.insertionSort (· ≤ ·) sample))
        else assign_codes_with_minimal_step sample.length mode.num_exact_codes
          (clusters (List.insertionSort (· ≤ ·) sample)) dflt := by
  unfold Dict.new
  dsimp only
  split_ifs <;> rfl

theorem new_pairwise (mode : Mode) (sample : List T) (dflt : T) :
    List.Pairwise (· < ·) (Dict.new mode sample dflt).codes := by
  rw [new_codes_eq]
  split_ifs with h1 h2
  · simp
  · rw [List.pairwise_map]
    exact clusters_pairwise _ (List.sorted_insertionSort _ sample)
  · exact amins_pairwise _ _ _ _ (clusters_pairwise _ (List.sorted_insertionSort _ sample))

theorem new_ne_nil (mode : Mode) (sample : List T) (dflt : T) :
    (Dict.new mode sample dflt).codes ≠ [] := by
  rw [new_codes_eq]
  split_ifs with h1 h2
  · simp
  · simp only [ne_eq, List.map_eq_nil_iff]
    exact clusters_ne_nil _ (insertionSort_ne_nil sample h1)
  · exact amins_ne_nil _ _ _ _ (clusters_ne_nil _ (insertionSort_ne_nil sample h1))
      (num_exact_codes_pos mode)

theorem new_length_le (mode : Mode) (sample : List T) (dflt : T) :
    (Dict.new mode sample dflt).codes.length ≤ mode.num_exact_codes := by
  rw [new_codes_eq]
  split_ifs with h1 h2
  · simpa using num_exact_codes_pos mode
  · simpa using h2
  · exact amins_length_le _ _ _ _

theorem new_mem_sample (mode : Mode) (sample : List T) (dflt : T)
    (hs : sample ≠ []) :
    ∀ v ∈ (Dict.new mode sample dflt).codes, v ∈ sample := by
  rw [new_codes_eq, if_neg hs]
  have hperm : List.Perm (List.insertionSort (· ≤ ·) sample) sample :=
    List.perm_insertionSort (· ≤ ·) sample
  split_ifs with h2
  · intro v hv
    obtain ⟨c, hc, hcv⟩ := List.mem_map.mp hv
    rw [← hcv]
    exact hperm.mem_iff.mp (clusters_value_mem _ c hc)
  · intro v hv
    obtain ⟨c, hc, hcv⟩ := amins_mem _ _ _ _ v hv
    rw [hcv]
    exact hperm.mem_iff.mp (clusters_value_mem _ c hc)

theorem mode_consts (mode : Mode) :
    mode.max_inexact_code = 2 * mode.num_exact_codes + 1
    ∧ mode.max_exact_code = 2 * mode.num_exact_codes := by
  cases mode <;> exact ⟨by decide, by decide⟩

/-! ### Claim theorems -/

/-- C1: for every dictionary built by `Dict.new` (any mode, any sample) and
all queries `a`, `b`: `encode a < encode b` implies `a < b`; `a < b`
implies `encode a ≤ encode b`; and `a = b` implies `encode a = encode b`. -/
theorem c1_order_laws (mode : Mode) (sample : List T) (dflt : T) (a b : T) :
    ((Dict.new mode sample dflt).encode a < (Dict.new mode sample dflt).encode b → a < b)
    ∧ (a < b →
        (Dict.new mode sample dflt).encode a ≤ (Dict.new mode sample dflt).encode b)
    ∧ (a = b →
        (Dict.new mode sample dflt).encode a = (Dict.new mode sample dflt).encode b) := by
  have hp := new_pairwise mode sample dflt
  exact ⟨fun h => lt_of_encode_lt _ hp h, fun h => encode_le_of_lt _ hp h,
    fun h => by rw [h]⟩

theorem c1_order_laws_witness :
    (1 : Nat) < 2
    ∧ (Dict.new Mode.Byte [1, 2, 3] 0).encode 1 ≤ (Dict.new Mode.Byte [1, 2, 3] 0).encode 2 :=
  ⟨by decide, (c1_order_laws Mode.Byte [1, 2, 3] 0 1 2).2.1 (by decide)⟩

/-- C2: every dictionary built by `Dict.new` (any mode, any sample,
including the empty sample) has a non-empty, strictly increasing `codes`
vector of length at most `mode.num_exact_codes` (127 in Byte mode, 32767 in
Word mode). -/
theorem c2_dict_invariants (mode : Mode) (sample : List T) (dflt : T) :
    (Dict.new mode sample dflt).codes ≠ []
    ∧ List.Pairwise (· < ·) (Dict.new mode sample dflt).codes
    ∧ (Dict.new mode sample dflt).codes.length ≤ mode.num_exact_codes :=
  ⟨new_ne_nil mode sample dflt, new_pairwise mode sample dflt,
    new_length_le mode sample dflt⟩

/-- C3: for every dictionary built by `Dict.new` and every query `q`, the
encoded value lies in `[1, mode.max_inexact_code]`; and a binary-search
miss at insertion point `codes.length` (no entry equals `q` and all entries
are below `q`) yields the final odd code of the mode when `codes.length`
equals `mode.num_exact_codes`. -/
theorem c3_encode_range (mode : Mode) (sample : List T) (dflt : T) (q : T) :
    (1 ≤ (Dict.new mode sample dflt).encode q
      ∧ (Dict.new mode sample dflt).encode q ≤ mode.max_inexact_code)
    ∧ (q ∉ (Dict.new mode sample dflt).codes →
        (∀ c ∈ (Dict.new mode sample dflt).codes, c < q) →
        (Dict.new mode sample dflt).codes.length = mode.num_exact_codes →
        (Dict.new mode sample dflt).encode q = mode.max_inexact_code) := by
  have hp := new_pairwise mode sample dflt
  have hlen := new_length_le mode sample dflt
  obtain ⟨hmi, hme⟩ := mode_consts mode
  constructor
  · rw [encode_eq _ hp]
    have h1 := rank_le_length (Dict.new mode sample dflt).codes q
    by_cases hmem : q ∈ (Dict.new mode sample dflt).codes
    · have h2 := rank_lt_length_of_mem hmem
      rw [if_pos hmem]
      omega
    · rw [if_neg hmem]
      omega
  · intro hnm hall hfull
    rw [encode_eq _ hp, if_neg hnm, rank_eq_length hall, hfull]
    omega

theorem c3_encode_range_witness :
    ((200 : Nat) ∉ (Dict.new Mode.Byte (List.range 127) 0).codes
      ∧ (∀ c ∈ (Dict.new Mode.Byte (List.range 127) 0).codes, c < 200)
      ∧ (Dict.new Mode.Byte (List.range 127) 0).codes.length
          = Mode.num_exact_codes Mode.Byte)
    ∧ (Dict.new Mode.Byte (List.range 127) 0).encode 200
        = Mode.max_inexact_code Mode.Byte :=
  ⟨⟨by decide, by decide, by decide⟩,
    (c3_encode_range Mode.Byte (List.range 127) 0 200).2 (by decide) (by decide)
      (by decide)⟩

/-- C4: for every dictionary built by `Dict.new` and queries
`a ≤ b ≤ c`, if `encode b` is exact (even) then `encode a < encode b`
whenever `a ≠ b` and `encode b < encode c` whenever `b ≠ c`; equivalently,
the exact code of a value `b` present in `codes` is strictly greater than
the code of any `q < b` and strictly less than the code of any `q > b`. -/
theorem c4_sandwich (mode : Mode) (sample : List T) (dflt : T) (a b c : T)
    (hab : a ≤ b) (hbc : b ≤ c) :
    (Code.is_exact ((Dict.new mode sample dflt).encode b) = true →
      (a ≠ b →
        (Dict.new mode sample dflt).encode a < (Dict.new mode sample dflt).encode b)
      ∧ (b ≠ c →
        (Dict.new mode sample dflt).encode b < (Dict.new mode sample dflt).encode c))
    ∧ (∀ q : T, b ∈ (Dict.new mode sample dflt).codes → q < b →
        (Dict.new mode sample dflt).encode q < (Dict.new mode sample dflt).encode b)
    ∧ (∀ q : T, b ∈ (Dict.new mode sample dflt).codes → b < q →
        (Dict.new mode sample dflt).encode b < (Dict.new mode sample dflt).encode q) := by
  have hp := new_pairwise mode sample dflt
  refine ⟨?_, ?_, ?_⟩
  · intro hex
    have hbm : b ∈ (Dict.new mode sample dflt).codes :=
      (encode_exact_iff_mem _ hp b).mp hex
    exact ⟨fun hne => encode_lt_of_mem_right _ hp hbm (lt_of_le_of_ne hab hne),
      fun hne => encode_lt_of_mem_left _ hp hbm (lt_of_le_of_ne hbc hne)⟩
  · exact fun q hbm hq => encode_lt_of_mem_right _ hp hbm hq
  · exact fun q hbm hq => encode_lt_of_mem_left _ hp hbm hq

theorem c4_sandwich_witness :
    ((1 : Nat) ≤ 2 ∧ (2 : Nat) ≤ 3
      ∧ Code.is_exact ((Dict.new Mode.Byte [1, 2, 3] 0).encode 2) = true
      ∧ (1 : Nat) ≠ 2)
    ∧ (Dict.new Mode.Byte [1, 2, 3] 0).encode 1 < (Dict.new Mode.Byte [1, 2, 3] 0).encode 2 :=
  ⟨⟨by decide, by decide, by decide, by decide⟩,
    ((c4_sandwich Mode.Byte [1, 2, 3] 0 1 2 3 (by decide) (by decide)).1
      (by decide)).1 (by decide)⟩

/-- C5 counterexample: in a reachable calibration state of
`assign_codes_with_minimal_step 9 3 [(0,3), (1,6)]` (initial step
`9 / 3 = 3`, first pass emits one code, `1 < 3`), the code computes the new
step as `3 * ((1 * 10000) / 3) / 10000 = 0`, while the claim's formula
`(3 * 1 * 10000 / 3) / 10000` gives `1`. -/
theorem c5_counterexample :
    (9 : Nat) / 3 = 3
    ∧ assign_codes_with_step 3 [(⟨0, 3⟩ : Cluster Nat), ⟨1, 6⟩] = [0]
    ∧ (1 : Nat) < 3
    ∧ nextStep 3 1 3 = 0
    ∧ nextStepClaimed 3 1 3 = 1
    ∧ nextStep 3 1 3 ≠ nextStepClaimed 3 1 3 := by
  refine ⟨by norm_num, ?_, by norm_num, by decide, by decide, by decide⟩
  have hw : window 3 [(⟨0, 3⟩ : Cluster Nat), ⟨1, 6⟩] ⟨0, 3⟩ 0 = (⟨0, 3⟩, []) := rfl
  rw [assign_cons, hw, assign_nil]

/-- C5 amended: in each calibration iteration where `codes.length < N`, the
new step equals `step * ((codes.length * 10000) / N) / 10000`: the bias
`codes.length * 10000 / N` is computed first by integer division, and only
then multiplied into `step` and divided by `10000`. -/
theorem c5_step_update (ncodes : Nat) (clu : List (Cluster T)) (dflt : T)
    (fuel codestep : Nat) (codes : List T) (h : codes.length < ncodes) :
    calibrate ncodes clu dflt (fuel + 1) codestep codes =
      (if (assign_codes_with_step (nextStep codestep codes.length ncodes) clu).length
          ≤ ncodes
       then calibrate ncodes clu dflt fuel (nextStep codestep codes.length ncodes)
         (assign_codes_with_step (nextStep codestep codes.length ncodes) clu)
       else codes)
    ∧ nextStep codestep codes.length ncodes
        = codestep * (codes.length * 10000 / ncodes) / 10000 := by
  constructor
  · simp only [calibrate]
    rw [if_neg (by omega), if_neg (by omega)]
  · rfl

theorem c5_step_update_witness :
    ([0] : List Nat).length < 3
    ∧ nextStep 3 ([0] : List Nat).length 3
        = 3 * (([0] : List Nat).length * 10000 / 3) / 10000 :=
  ⟨by decide, (c5_step_update 3 ([] : List (Cluster Nat)) 0 0 3 [0] (by decide)).2⟩

/-- C6 counterexample: at step `0` the inner loop consumes no cluster, so
`assign_codes_with_step` emits every cluster value and skips nothing, while
the claimed window behaviour (window `[(0,1)]` closes at cumulative count
`1 ≥ 0`, emits `0`, and skips the following cluster `(1,1)`) emits `[0]`
only. -/
theorem c6_counterexample :
    assign_codes_with_step 0 [(⟨0, 1⟩ : Cluster Nat), ⟨1, 1⟩] = [0, 1]
    ∧ claimedAssign 0 [(⟨0, 1⟩ : Cluster Nat), ⟨1, 1⟩] = [0]
    ∧ assign_codes_with_step 0 [(⟨0, 1⟩ : Cluster Nat), ⟨1, 1⟩]
        ≠ claimedAssign 0 [(⟨0, 1⟩ : Cluster Nat), ⟨1, 1⟩] := by
  have h1 : assign_codes_with_step 0 [(⟨0, 1⟩ : Cluster Nat), ⟨1, 1⟩] = [0, 1] := by
    rw [assign_zero]
    rfl
  have h2 : claimedAssign 0 [(⟨0, 1⟩ : Cluster Nat), ⟨1, 1⟩] = [0] := by
    rw [claimed_cons]
    have hw : winLen 0 [(⟨0, 1⟩ : Cluster Nat), ⟨1, 1⟩] = 0 := rfl
    rw [hw]
    have hdrop : ([(⟨0, 1⟩ : Cluster Nat), ⟨1, 1⟩]).drop (max 1 0 + 1) = [] := rfl
    rw [hdrop, claimed_nil]
    rfl
  refine ⟨h1, h2, ?_⟩
  rw [h1, h2]
  decide

/-- C6 amended: for every positive step and non-empty strictly increasing
cluster sequence, `assign_codes_with_step` behaves exactly as the claimed
window description (`claimedAssign`): windows are shortest non-empty
prefixes whose cumulative count reaches the step, each emits its cluster of
maximum count (earliest on ties, by strict-less-than comparison), the
single cluster after each closed window is skipped, and the emitted values
are strictly increasing; at step `0` every cluster value is emitted and no
cluster is skipped. -/
theorem c6_window_behavior (step : Nat) (clu : List (Cluster T))
    (hsorted : List.Pairwise (fun x y : Cluster T => x.value < y.value) clu)
    (hne : clu ≠ []) :
    (0 < step → assign_codes_with_step step clu = claimedAssign step clu)
    ∧ assign_codes_with_step 0 clu = List.map Cluster.value clu
    ∧ List.Pairwise (· < ·) (assign_codes_with_step step clu)
    ∧ (∀ (b : Cluster T) (l : List (Cluster T)),
        ∃ l₁ l₂, b :: l = l₁ ++ pickMax b l :: l₂
          ∧ (∀ x ∈ l₁, x.count < (pickMax b l).count)
          ∧ (∀ x ∈ b :: l, x.count ≤ (pickMax b l).count)) :=
  ⟨fun hs => assign_eq_claimed step hs clu, assign_zero clu,
    assign_pairwise step clu hsorted, pickMax_spec⟩

theorem c6_window_behavior_witness :
    (List.Pairwise (fun x y : Cluster Nat => x.value < y.value)
        [⟨0, 2⟩, ⟨1, 1⟩]
      ∧ ([(⟨0, 2⟩ : Cluster Nat), ⟨1, 1⟩] ≠ [])
      ∧ (0 : Nat) < 1)
    ∧ assign_codes_with_step 1 [(⟨0, 2⟩ : Cluster Nat), ⟨1, 1⟩]
        = claimedAssign 1 [(⟨0, 2⟩ : Cluster Nat), ⟨1, 1⟩] :=
  ⟨⟨by decide, by decide, by decide⟩,
    (c6_window_behavior 1 [(⟨0, 2⟩ : Cluster Nat), ⟨1, 1⟩] (by decide)
      (by decide)).1 (by decide)⟩

/-- C7: for every sorted input of length `k > 0` the cluster reducer
returns between `1` and `k` clusters with strictly increasing values,
positive counts, and counts summing to `k`; the empty input yields the
empty output, an all-equal input yields a single cluster of count `k`, and
an all-distinct (strictly increasing) input yields `k` clusters of count
`1`. -/
theorem c7_clusters_contract (l : List T) (hs : List.Sorted (· ≤ ·) l) :
    (l ≠ [] →
      1 ≤ (clusters l).length
      ∧ (clusters l).length ≤ l.length
      ∧ List.Pairwise (· < ·) (List.map Cluster.value (clusters l))
      ∧ (∀ c ∈ clusters l, 0 < c.count)
      ∧ (List.map Cluster.count (clusters l)).sum = l.length)
    ∧ clusters ([] : List T) = []
    ∧ (∀ (v : T) (k : Nat), 0 < k →
        clusters (List.replicate k v) = [⟨v, k⟩])
    ∧ (List.Pairwise (· < ·) l →
        clusters l = List.map (fun v => (⟨v, 1⟩ : Cluster T)) l) := by
  refine ⟨?_, rfl, ?_, ?_⟩
  · intro hne
    refine ⟨List.length_pos.mpr (clusters_ne_nil l hne), clusters_length_le l,
      List.pairwise_map.mpr (clusters_pairwise l hs), clusters_count_pos l,
      clusters_sum l⟩
  · intro v k hk
    cases k with
    | zero => exact absurd hk (Nat.lt_irrefl 0)
    | succ n =>
      rw [List.replicate_succ, clusters_cons_eq,
        clustersAux_all_eq _ _ _ (fun y hy => List.eq_of_mem_replicate hy)]
      rw [List.length_replicate]
      have hc : (1 : Nat) + n = n + 1 := Nat.add_comm 1 n
      rw [hc]
  · intro hp
    cases l with
    | nil => rfl
    | cons x rest =>
      rw [clusters_cons_eq,
        clustersAux_all_distinct _ _ _ (List.pairwise_cons.mp hp).1 hp.of_cons]
      rfl

theorem c7_clusters_contract_witness :
    (List.Sorted (· ≤ ·) ([1, 1, 2] : List Nat) ∧ ([1, 1, 2] : List Nat) ≠ [])
    ∧ (List.map Cluster.count (clusters ([1, 1, 2] : List Nat))).sum
        = ([1, 1, 2] : List Nat).length :=
  ⟨⟨by decide, by decide⟩,
    ((c7_clusters_contract ([1, 1, 2] : List Nat) (by decide)).1 (by decide)).2.2.2.2⟩

/-- C8: for every mode, `Dict.new` on the empty sample yields the single
code list `[dflt]`; queries strictly below the default encode to `1`, the
default itself to `2`, and queries strictly above to `3`. -/
theorem c8_empty_sample (mode : Mode) (dflt : T) (q : T) :
    (Dict.new mode ([] : List T) dflt).codes = [dflt]
    ∧ (q < dflt → (Dict.new mode ([] : List T) dflt).encode q = 1)
    ∧ (q = dflt → (Dict.new mode ([] : List T) dflt).encode q = 2)
    ∧ (dflt < q → (Dict.new mode ([] : List T) dflt).encode q = 3) := by
  have hc : (Dict.new mode ([] : List T) dflt).codes = [dflt] := by
    rw [new_codes_eq, if_pos rfl]
  refine ⟨hc, ?_, ?_, ?_⟩
  · intro h
    unfold Dict.encode
    rw [hc]
    have hss : searchSorted [dflt] q = (0, false) := by
      simp only [searchSorted]
      rw [if_pos h]
    rw [hss]
  · intro h
    unfold Dict.encode
    rw [hc]
    have hss : searchSorted [dflt] q = (0, true) := by
      simp only [searchSorted]
      rw [if_neg (by rw [h]; exact lt_irrefl dflt), if_pos h]
    rw [hss]
  · intro h
    unfold Dict.encode
    rw [hc]
    have hss : searchSorted [dflt] q = (1, false) := by
      simp only [searchSorted]
      rw [if_neg (not_lt_of_lt h), if_neg (ne_of_gt h)]
    rw [hss]

theorem c8_empty_sample_witness :
    ((-5 : Int) < 0 ∧ (Dict.new Mode.Byte ([] : List Int) 0).encode (-5) = 1)
    ∧ (Dict.new Mode.Byte ([] : List Int) 0).encode 0 = 2
    ∧ ((0 : Int) < 7 ∧ (Dict.new Mode.Byte ([] : List Int) 0).encode 7 = 3) :=
  ⟨⟨by decide, (c8_empty_sample Mode.Byte (0 : Int) (-5)).2.1 (by decide)⟩,
    (c8_empty_sample Mode.Byte (0 : Int) 0).2.2.1 rfl,
    ⟨by decide, (c8_empty_sample Mode.Byte (0 : Int) 7).2.2.2 (by decide)⟩⟩

/-- C9: the `resize` in the calibration loop is only executed when the
codes vector is strictly longer than the target, so it only shrinks (it
equals `take` and never inserts the default fill value); consequently every
code of a dictionary built from a non-empty sample is a value occurring in
the sample. -/
theorem c9_truncation_only_shrinks (mode : Mode) (sample : List T) (dflt : T) :
    (∀ (codes : List T) (n : Nat), n < codes.length →
      listResize codes n dflt = codes.take n)
    ∧ (∀ (clu : List (Cluster T)) (fuel codestep n : Nat) (codes : List T),
        n < codes.length →
        calibrate n clu dflt (fuel + 1) codestep codes = codes.take n)
    ∧ (sample ≠ [] → ∀ v ∈ (Dict.new mode sample dflt).codes, v ∈ sample) := by
  refine ⟨?_, ?_, new_mem_sample mode sample dflt⟩
  · intro codes n h
    exact listResize_eq_take codes n dflt (le_of_lt h)
  · intro clu fuel codestep n codes h
    simp only [calibrate]
    rw [if_neg (by omega), if_pos h, listResize_eq_take _ _ _ (le_of_lt h)]

theorem c9_truncation_only_shrinks_witness :
    ((2 : Nat) < ([5, 6, 7] : List Nat).length
      ∧ ([3, 1, 2] : List Nat) ≠ []
      ∧ (2 : Nat) ∈ (Dict.new Mode.Byte ([3, 1, 2] : List Nat) 0).codes)
    ∧ listResize ([5, 6, 7] : List Nat) 2 0 = List.take 2 [5, 6, 7]
    ∧ (2 : Nat) ∈ ([3, 1, 2] : List Nat) :=
  ⟨⟨by decide, by decide, by decide⟩,
    (c9_truncation_only_shrinks Mode.Byte ([3, 1, 2] : List Nat) 0).1 [5, 6, 7] 2
      (by decide),
    (c9_truncation_only_shrinks Mode.Byte ([3, 1, 2] : List Nat) 0).2.2 (by decide) 2
      (by decide)⟩

/-- C10: `Dict.new` is invariant under permutation of its sample: two
samples that are equal as multisets produce identical `codes` vectors, and
hence `encode` agrees on every query. -/
theorem c10_permutation_invariance (mode : Mode) (s₁ s₂ : List T) (dflt : T)
    (h : List.Perm s₁ s₂) :
    (Dict.new mode s₁ dflt).codes = (Dict.new mode s₂ dflt).codes
    ∧ ∀ q : T, (Dict.new mode s₁ dflt).encode q = (Dict.new mode s₂ dflt).encode q := by
  have hsort : List.insertionSort (· ≤ ·) s₁ = List.insertionSort (· ≤ ·) s₂ := by
    have hp12 : List.Perm (List.insertionSort (· ≤ ·) s₁) (List.insertionSort (· ≤ ·) s₂) :=
      (List.perm_insertionSort _ s₁).trans
        (h.trans (List.perm_insertionSort _ s₂).symm)
    exact List.eq_of_perm_of_sorted hp12 (List.sorted_insertionSort (· ≤ ·) s₁)
      (List.sorted_insertionSort (· ≤ ·) s₂)
  have hlen : s₁.length = s₂.length := h.length_eq
  have hcodes : (Dict.new mode s₁ dflt).codes = (Dict.new mode s₂ dflt).codes := by
    by_cases h1 : s₁ = []
    · have h2 : s₂ = [] := by
        rw [h1] at h
        exact h.symm.eq_nil
      rw [new_codes_eq, new_codes_eq, if_pos h1, if_pos h2]
    · have h2 : ¬s₂ = [] := by
        intro h2
        rw [h2] at h
        exact h1 h.eq_nil
      rw [new_codes_eq, new_codes_eq, if_neg h1, if_neg h2, hsort, hlen]
  refine ⟨hcodes, fun q => ?_⟩
  unfold Dict.encode
  rw [hcodes]

theorem c10_permutation_invariance_witness :
    List.Perm ([2, 1] : List Nat) [1, 2]
    ∧ (Dict.new Mode.Byte ([2, 1] : List Nat) 0).codes
        = (Dict.new Mode.Byte ([1, 2] : List Nat) 0).codes :=
  ⟨by decide, (c10_permutation_invariance Mode.Byte [2, 1] [1, 2] 0 (by decide)).1⟩

end Ordbog
